import Mathlib

set_option maxRecDepth 16384

/-!
Verification of the zl2wbm link-archival pipeline (zl2wbm.py).

The Python source is shallowly embedded: each function of the pipeline
becomes a Lean definition over `String`/`List Char`, network calls are
modelled by an explicit service record passed in, and Python exceptions
become `Except` values.  The regular expressions of the source are fixed
concrete patterns, so each one is embedded as a dedicated decidable
matcher with Python `re` semantics for exactly the constructs the
pattern uses (dot does not match newline, `\s` is a whitespace class,
lookbehind/lookahead assertions, greedy star with backtracking,
leftmost match).  URL interpolation into patterns is unescaped in
`edit_text` (see `normalLinkPatternString`); the matchers below treat
an interpolated dot as the regex wildcard and are therefore faithful
for URLs whose only regex metacharacter is the dot.
-/

namespace Zl2wbm

/-- Python re class `\s` on the ASCII range (the whitespace characters
occurring in the repository all lie in this range). -/
def isWS (c : Char) : Bool :=
  c = ' ' || c = '\t' || c = '\n' || c = '\r' || c = '\x0b' || c = '\x0c'

/-- zl2wbm.py line 23: hosts excluded from extraction and archiving. -/
def IGNORED_HOSTS : List String :=
  ["web.archive.org", "archive.is", "web-beta.archive.org", "localhost"]

/-- zl2wbm.py line 21. -/
def BASE_WEB_ARCHIVE_URL : String := "https://web.archive.org"

/-- zl2wbm.py line 25: the `ArchivedUrl` namedtuple. -/
structure ArchivedUrl where
  original_url : String
  archived_url : String
deriving DecidableEq

/-! ## Model of `urllib.parse.urlparse(url).hostname` -/

/-- Characters allowed in a URL scheme after the first one
(CPython `urllib.parse.scheme_chars`). -/
def isSchemeChar (c : Char) : Bool :=
  c.isAlpha || c.isDigit || c = '+' || c = '-' || c = '.'

/-- Split a character list at the first colon, returning the parts
before and after it. -/
def splitAtColon : List Char → Option (List Char × List Char)
  | [] => none
  | ':' :: r => some ([], r)
  | c :: r => (splitAtColon r).map (fun p => (c :: p.1, p.2))

/-- The url with its scheme (and the colon) removed when a valid scheme
is present, as CPython urlsplit does: the part before the first colon
must be nonempty, start with a letter and consist of scheme characters. -/
def afterScheme (l : List Char) : List Char :=
  match splitAtColon l with
  | some (pre, rest) =>
    if pre ≠ [] ∧ (pre.headI.isAlpha) ∧ pre.all isSchemeChar then rest else l
  | none => l

/-- The netloc of the (scheme-stripped) url: present only after a
leading double slash, delimited by slash, question mark or hash. -/
def netlocOf : List Char → List Char
  | '/' :: '/' :: r => r.takeWhile (fun c => c ≠ '/' && c ≠ '?' && c ≠ '#')
  | _ => []

/-- The part of the list after the last occurrence of the delimiter
(the whole list when the delimiter is absent); CPython rpartition. -/
def afterLastDelim (d : Char) (l : List Char) : List Char :=
  ((l.reverse.takeWhile (fun c => c ≠ d)).reverse)

/-- The part of the list before the first occurrence of the delimiter. -/
def beforeFirstDelim (d : Char) (l : List Char) : List Char :=
  l.takeWhile (fun c => c ≠ d)

/-- Whether the list contains the character. -/
def hasChar (d : Char) (l : List Char) : Bool := l.any (fun c => c = d)

/-- The host part of a netloc: userinfo up to the last at sign is
dropped, then either the bracketed IPv6 literal is taken or everything
before the first colon (the port separator). -/
def hostOfNetloc (nl : List Char) : List Char :=
  let hi := afterLastDelim '@' nl
  if hasChar '[' hi then
    beforeFirstDelim ']' ((hi.dropWhile (fun c => c ≠ '[')).tail)
  else
    beforeFirstDelim ':' hi

/-- Model of CPython `urlparse(url).hostname`: the lower-cased host of
the netloc, `none` when empty (Python returns `None`). -/
def urlparseHostname (url : String) : Option String :=
  let host := hostOfNetloc (netlocOf (afterScheme url.toList))
  if host = [] then none else some (String.mk (host.map Char.toLower))

/-! ## Link Extractor (`get_urls_to_archive_from_text`, lines 145-167) -/

/-- zl2wbm.py line 151: `url.lstrip('[[').rstrip(']]').split('|', 1)[0]`.
`lstrip`/`rstrip` strip runs of the bracket character, then everything
from the first pipe on is dropped. -/
def stripToken (u : String) : String :=
  let l := u.toList.dropWhile (fun c => c = '[')
  let l := (l.reverse.dropWhile (fun c => c = ']')).reverse
  String.mk (l.takeWhile (fun c => c ≠ '|'))

/-- All ways the regex `.*` followed by the literal `stop` can consume a
prefix of `l`: the list of remainders after `stop` for every split whose
consumed part contains no newline (Python dot does not match newline). -/
def dotStarStop (stop : List Char) : List Char → List (List Char)
  | [] => []
  | c :: r =>
    (if stop.isPrefixOf (c :: r) then [(c :: r).drop stop.length] else []) ++
    (if c = '\n' then [] else dotStarStop stop r)

/-- Matcher for the tail `\s\(\[\[.*\|Archive\]\]\)` of the
already-archived detection regex (line 160), anchored at the start of
`l`: one whitespace character, the literal open-paren double bracket,
then anything up to a literal `|Archive]])`. -/
def archiveTailHere (l : List Char) : Bool :=
  match l with
  | c :: r =>
    isWS c && ("([[".toList.isPrefixOf r) &&
      !(dotStarStop ("|Archive]])".toList) (r.drop 3)).isEmpty
  | [] => false

/-- The suffixes reachable by the leading `:?(:?` of the detection
regex (a typo for non-capturing groups in the source, which makes the
two colons optional literal characters). -/
def colonSkips (l : List Char) : List (List Char) :=
  match l with
  | ':' :: (':' :: r2) => [l, ':' :: r2, r2]
  | ':' :: r => [l, r]
  | _ => [l]

/-- First alternative of the detection regex at this position: up to two
optional colons, the (re.escape-d, hence literal) url, then the archive
tail. -/
def archivedBare (u : List Char) (l : List Char) : Bool :=
  (colonSkips l).any (fun m => u.isPrefixOf m && archiveTailHere (m.drop u.length))

/-- Second alternative of the detection regex at this position: a
literal open double bracket, the url, a literal pipe, then `.*\]\]`
followed by the archive tail. -/
def archivedBracketed (u : List Char) (l : List Char) : Bool :=
  ("[[".toList).isPrefixOf l &&
    (u.isPrefixOf (l.drop 2) &&
      (("|".toList).isPrefixOf ((l.drop 2).drop u.length) &&
        (dotStarStop ("]]".toList) (((l.drop 2).drop u.length).drop 1)).any
          archiveTailHere))

/-- zl2wbm.py lines 160-164: `re.search` of the already-archived
detection regex built with `re.escape(url)` over the whole text; true
when some position of the text starts a match. -/
def linkArchivedSearch (u : String) (text : String) : Bool :=
  text.toList.tails.any (fun l => archivedBare u.toList l || archivedBracketed u.toList l)

/-- The per-token body of the extractor loop (lines 148-165): strip the
wiki decoration, keep the url only if its parsed hostname exists, is not
ignored, and the already-archived detection regex does not match. -/
def tokenResult (text : String) (tok : String) : Option String :=
  let url := stripToken tok
  match urlparseHostname url with
  | some h =>
    if h ∈ IGNORED_HOSTS then none
    else if linkArchivedSearch url text then none
    else some url
  | none => none

/-- zl2wbm.py lines 145-167: `get_urls_to_archive_from_text`.  The call
`url_extractor.find_urls(text, only_unique=True)` is an external
library call, modelled by the `findUrls` parameter; the loop appends the
accepted urls in token order. -/
def get_urls_to_archive_from_text (findUrls : String → List String) (text : String) :
    List String :=
  (findUrls text).foldl
    (fun acc tok =>
      match tokenResult text tok with
      | some url => acc ++ [url]
      | none => acc) []


/-! ## Archive Client (`save_link_in_wayback_machine`, lines 69-110) -/

/-- The `closest` record of the availability JSON response: the
timestamp is kept as the parsed datetime, measured in seconds on an
absolute axis (`datetime.strptime(.., "%Y%m%d%H%M%S")`). -/
structure ClosestSnapshot where
  timestamp : Int
  url : String
deriving DecidableEq

/-- The availability response body: `archived_snapshots` is either the
empty (falsy) object or carries a `closest` record. -/
structure AvailabilityResult where
  closest : Option ClosestSnapshot
deriving DecidableEq

/-- The save response headers that the client inspects. -/
structure SaveResult where
  runtimeError : Option String
  livewebError : Option String
  contentLocation : Option String
deriving DecidableEq

/-- The exceptions that can escape one archiving step:
`requests.HTTPError`, `json.JSONDecodeError`, and the module's own
`SaveLinkToWaybackMachineException` (line 30). -/
inductive ReqError where
  | httpError : ReqError
  | jsonDecodeError : ReqError
  | saveLinkException : String → ReqError
deriving DecidableEq

/-- The archiving service collaborator: the availability endpoint
(line 76, `requests.get` plus `json.loads`) and the save endpoint
(line 97); either call can raise. -/
structure WaybackService where
  availability : String → Except ReqError AvailabilityResult
  save : String → Except ReqError SaveResult

/-- zl2wbm.py line 70: prefix `http://` when the url has no scheme
separator. -/
def normalizeUrl (url : String) : String :=
  if "://".toList <:+: url.toList then url else "http://" ++ url

/-- The result of one client call together with whether the save
endpoint was hit (the call-count observable of the collaborator). -/
structure SaveOutcome where
  result : Except ReqError String
  saveCalled : Bool

/-- zl2wbm.py lines 96-106: the save branch.  An error-signal header
raises `SaveLinkToWaybackMachineException` with the header value;
otherwise the archive url is the base origin plus the content-location
header, falling back to the url itself. -/
def doSave (svc : WaybackService) (url : String) : SaveOutcome :=
  match svc.save url with
  | .error e => ⟨.error e, true⟩
  | .ok r =>
    match r.runtimeError with
    | some m => ⟨.error (.saveLinkException m), true⟩
    | none =>
      match r.livewebError with
      | some m => ⟨.error (.saveLinkException m), true⟩
      | none => ⟨.ok (BASE_WEB_ARCHIVE_URL ++ r.contentLocation.getD url), true⟩

/-- zl2wbm.py lines 69-110: `save_link_in_wayback_machine`.  After the
availability query, `archived_url` is set to the closest snapshot url
when that snapshot is under 14 days old (`delta.days < 14`, with
`timedelta.days` the floor of the second difference over 86400); the
save branch runs under `if not archived_url`, i.e. when no snapshot url
was kept or the kept url is the empty (falsy) string. -/
def save_link_in_wayback_machine (svc : WaybackService) (now : Int) (url0 : String) :
    SaveOutcome :=
  let url := normalizeUrl url0
  match svc.availability url with
  | .error e => ⟨.error e, false⟩
  | .ok avail =>
    let archivedUrl : Option String :=
      match avail.closest with
      | some cs => if (now - cs.timestamp).fdiv 86400 < 14 then some cs.url else none
      | none => none
    match archivedUrl with
    | some au => if au = "" then doSave svc url else ⟨.ok au, false⟩
    | none => doSave svc url

/-! ## Batch Archiver (`archive_links`, lines 129-142) -/

/-- zl2wbm.py lines 129-142: `archive_links`.  Each url whose parsed
hostname is not ignored is archived; the `try` block catches only
`requests.HTTPError` and `json.JSONDecodeError` (line 138), so a
`SaveLinkToWaybackMachineException` propagates and aborts the loop. -/
def archive_links (svc : WaybackService) (now : Int) :
    List String → Except ReqError (List ArchivedUrl)
  | [] => .ok []
  | url :: rest =>
    if (urlparseHostname url).any (fun h => h ∈ IGNORED_HOSTS) then
      archive_links svc now rest
    else
      match (save_link_in_wayback_machine svc now url).result with
      | .ok a => (archive_links svc now rest).map (fun l => ⟨url, a⟩ :: l)
      | .error .httpError => archive_links svc now rest
      | .error .jsonDecodeError => archive_links svc now rest
      | .error (.saveLinkException m) => .error (.saveLinkException m)

/-! ## Text Rewriter (`edit_text`, lines 170-205) -/

/-- Matching of the interpolated (unescaped) url against the text at
the current position: character by character, with the regex dot
matching any character but newline.  Because lines 188-191 interpolate
the url without escaping, this matcher is faithful exactly for urls
whose only regex special character is the dot (`onlyDotSpecial`); the
theorems that rely on it carry that hypothesis. -/
def matchU : List Char → List Char → Bool
  | [], _ => true
  | _ :: _, [] => false
  | p :: ur, c :: lr =>
    (if p = '.' then decide (c ≠ '\n') else decide (p = c)) && matchU ur lr

/-- The lookbehind `(?:(?<=\s)|(?<=^))`: the previous character (none at
the start of the string) is whitespace or absent. -/
def boundaryOk : Option Char → Bool
  | none => true
  | some c => isWS c

/-- The lookahead `(?=\s|$)`: next character is whitespace or the string
ends (and Python `$` before a final newline is subsumed by `\s`). -/
def wsOrEnd : List Char → Bool
  | [] => true
  | c :: _ => isWS c

/-- `re.search` of the bare-link pattern of line 188,
`(?:(?<=\s)|(?<=^)){url}(?=\s|$)`: scan every position, carrying the
previous character for the lookbehind. -/
def normalSearchAux (u : List Char) : Option Char → List Char → Bool
  | prev, [] => boundaryOk prev && matchU u []
  | prev, c :: r =>
    (boundaryOk prev && matchU u (c :: r) && wsOrEnd ((c :: r).drop u.length)) ||
      normalSearchAux u (some c) r

/-- Whether the bare-link regex of line 188 matches somewhere in `t`. -/
def normalSearch (u t : String) : Bool :=
  normalSearchAux u.toList none t.toList

/-- Greedy `[^\[]*\]\](?=\s|$)`: the longest label without an open
bracket such that a literal `]]` and the lookahead follow; returns the
label and the remainder after the `]]`. -/
def greedyLabel : List Char → Option (List Char × List Char)
  | [] => none
  | c :: r =>
    if c = '[' then none
    else
      match greedyLabel r with
      | some (m, rest) => some (c :: m, rest)
      | none =>
        if ("]]".toList).isPrefixOf (c :: r) && wsOrEnd ((c :: r).drop 2) then
          some ([], (c :: r).drop 2)
        else none

/-- The bracketed-link pattern `\[\[{url}\|[^\[]*\]\](?=\s|$)` of
line 190 tried at the current position; on success returns the matched
span (regex group 0), whose url part is taken from the text since the
interpolated dot is a wildcard. -/
def tryIntegratedAt (u : List Char) (l : List Char) : Option (List Char) :=
  match l with
  | '[' :: '[' :: r =>
    if matchU u r then
      match r.drop u.length with
      | '|' :: r2 =>
        match greedyLabel r2 with
        | some (m, _) =>
          some ('[' :: '[' :: (r.take u.length ++ '|' :: (m ++ [']', ']'])))
        | none => none
      | _ => none
    else none
  | _ => none

/-- `re.search` of the bracketed-link pattern: leftmost position with a
valid lookbehind where the pattern matches; returns group 0. -/
def integratedSearchAux (u : List Char) : Option Char → List Char → Option (List Char)
  | _, [] => none
  | prev, c :: r =>
    match (if boundaryOk prev then tryIntegratedAt u (c :: r) else none) with
    | some g => some g
    | none => integratedSearchAux u (some c) r

/-- Whether (and what) the bracketed-link regex of line 190 matches
first in `t`. -/
def integratedSearch (u t : String) : Option String :=
  (integratedSearchAux u.toList none t.toList).map String.mk

/-- Fuelled worker for the global literal replacement: on a prefix
match the replacement is emitted and the matched portion skipped.  The
fuel only serves structural termination; any fuel at least the length
of the list computes the same result (`replFuel_congr`). -/
def replFuel (p : Char) (ps new : List Char) : Nat → List Char → List Char
  | 0, l => l
  | _ + 1, [] => []
  | fuel + 1, c :: r =>
    if (p :: ps).isPrefixOf (c :: r) then new ++ replFuel p ps new fuel (r.drop ps.length)
    else c :: replFuel p ps new fuel r

/-- Replace every (non-overlapping, left to right) occurrence of the
nonempty literal pattern `p :: ps` by `new`. -/
def replaceAllAux (p : Char) (ps new l : List Char) : List Char :=
  replFuel p ps new l.length l

/-- zl2wbm.py line 203: `re.sub(re.escape(effective_pattern), new_url,
text)` restricted to the success path — a literal global replacement.
`re.sub` first runs the replacement string through its template parser
(modelled by `pyReplTemplate`); this function is the behaviour when
that parser returns the template itself (in particular whenever the
replacement contains no backslash), and line 203 raises `re.error`
when it does not (see `pyReplTemplate` and the C7 counterexample).
Python inserts the replacement around every character when the pattern
is empty. -/
def pySubLiteral (pat new text : String) : String :=
  match pat.toList with
  | [] => String.mk (text.toList.foldr (fun c acc => new.toList ++ c :: acc) new.toList)
  | p :: ps => String.mk (replaceAllAux p ps new.toList text.toList)

/-- The annotation appended after a matched span (line 202). -/
def archiveInsertion (archivedUrl : String) : String :=
  " ([[" ++ archivedUrl ++ "|Archive]])"

/-- zl2wbm.py lines 183-203: the body of the rewriter loop for one
`ArchivedUrl`: the bracketed match takes precedence, its whole span is
the effective pattern; otherwise a bare match uses the url itself;
otherwise the text is unchanged.  The effective pattern is replaced
everywhere by itself plus the annotation. -/
def editOne (text : String) (au : ArchivedUrl) : String :=
  match integratedSearch au.original_url text with
  | some span => pySubLiteral span (span ++ archiveInsertion au.archived_url) text
  | none =>
    if normalSearch au.original_url text then
      pySubLiteral au.original_url (au.original_url ++ archiveInsertion au.archived_url)
        text
    else text

/-- zl2wbm.py lines 170-205: `edit_text` folds the per-pair rewrite over
the list of archived urls. -/
def edit_text (text : String) (archived_urls : List ArchivedUrl) : String :=
  archived_urls.foldl editOne text

/-! ## Directory crawl (`crawl_notebook_and_archive_links`, lines 208-236) -/

/-- A file yielded by the traversal collaborator: `read_text` either
produces the contents or raises `UnicodeDecodeError`. -/
structure NotebookFile where
  contents : Except Unit String

/-- The exceptions that can escape the crawl: the `TypeError` raised by
line 216 (`logger.error` is given a `file` keyword that `Logger.error`
does not accept), or an uncaught exception from `archive_links`. -/
inductive CrawlError where
  | typeError : CrawlError
  | reqError : ReqError → CrawlError
deriving DecidableEq

/-- zl2wbm.py line 214: `file_contents.split('\n', 1)[0]`. -/
def firstLine (s : String) : String :=
  String.mk (s.toList.takeWhile (fun c => c ≠ '\n'))

/-- zl2wbm.py lines 208-236: `crawl_notebook_and_archive_links`,
returning the list of texts printed for the processed files.  On a
decode error the handler at line 216 calls
`logger.error(..., file=sys.stderr)`: `Logger.error` accepts no `file`
keyword, so when the ERROR level is enabled (`errorLogEnabled`, true
under the default DEBUG configuration) the call raises `TypeError` and
aborts the crawl; only with logging set above ERROR is the call a
no-op and the `continue` of line 217 reached.  A first line differing
from the zim marker executes `return` (line 220), ending the whole
traversal; an uncaught exception from `archive_links` propagates. -/
def crawl_notebook_and_archive_links (findUrls : String → List String)
    (svc : WaybackService) (now : Int) (errorLogEnabled : Bool) :
    List NotebookFile → Except CrawlError (List String)
  | [] => .ok []
  | f :: rest =>
    match f.contents with
    | .error _ =>
      if errorLogEnabled then .error .typeError
      else crawl_notebook_and_archive_links findUrls svc now errorLogEnabled rest
    | .ok contents =>
      if firstLine contents ≠ "Content-Type: text/x-zim-wiki" then .ok []
      else
        match archive_links svc now (get_urls_to_archive_from_text findUrls contents) with
        | .error e => .error (.reqError e)
        | .ok archived =>
          (crawl_notebook_and_archive_links findUrls svc now errorLogEnabled rest).map
            (fun l => edit_text contents archived :: l)


/-- A literal occurrence of `pat` somewhere in `l`. -/
def Occurs (pat l : List Char) : Prop := ∃ a b, l = a ++ pat ++ b

/-- A service that answers every request with the same fixed responses. -/
def mkService (av : AvailabilityResult) (sv : SaveResult) : WaybackService :=
  ⟨fun _ => .ok av, fun _ => .ok sv⟩

/-! ## Model of pattern compilation for the unescaped interpolation in
`edit_text` (lines 188-191) -/

/-- The characters that Python `re` treats as special and that
`re.escape` would quote (the unescaped interpolation in `edit_text` is
only literal for urls avoiding them). -/
def pyRegexSpecial : List Char :=
  ['.', '^', '$', '*', '+', '?', '\x7b', '\x7d', '[', ']', '\\', '|', '(', ')']

/-- Whether the url contains no regex special character. -/
def noRegexSpecial (u : String) : Bool :=
  u.toList.all (fun c => c ∉ pyRegexSpecial)

/-- Parenthesis-balance scanner over a pattern string: an escaped
character is skipped, a character class is entered at an open bracket
and left at the closing bracket, group parentheses must balance.
`re.compile` raises `re.error` whenever this check fails (missing or
unbalanced parenthesis), so this models the compilability of the
patterns that `edit_text` builds. -/
def parenScan : List Char → Nat → Bool → Bool → Bool
  | [], d, inCl, esc => !esc && (decide (d = 0) && !inCl)
  | c :: r, d, inCl, esc =>
    if esc then parenScan r d inCl false
    else if c = '\\' then parenScan r d inCl true
    else if inCl then parenScan r d (decide (c ≠ ']')) false
    else if c = '(' then parenScan r (d + 1) false false
    else if c = ')' then (if d = 0 then false else parenScan r (d - 1) false false)
    else if c = '[' then parenScan r d true false
    else parenScan r d false false

/-- The balance check on a whole pattern. -/
def reCompileBalanced (pat : String) : Bool := parenScan pat.toList 0 false false

/-- The exact pattern string that `edit_text` line 188 builds for the
bare-link regex, with the url interpolated unescaped. -/
def normalLinkPatternString (u : String) : String :=
  "(?:(?<=\\s)|(?<=^))" ++ u ++ "(?=\\s|$)"

/-- Whether the url contains no regex special character other than the
dot.  On this domain the unescaped interpolation of lines 188-191 is
exact: the dot is the only metacharacter left in the pattern, and a
dot matches itself at any literal occurrence of the url. -/
def onlyDotSpecial (u : String) : Bool :=
  u.toList.all (fun c => c = '.' || c ∉ pyRegexSpecial)

/-- States of the replacement-template scanner of `pyReplTemplate`:
plain text, just after a backslash, or inside an octal escape (count
of extra digits consumed and accumulated value). -/
inductive TplMode where
  | normal : TplMode
  | esc : TplMode
  | oct : Nat → Nat → TplMode
deriving DecidableEq

/-- The control-character escapes a replacement template accepts. -/
def escCharMap (c : Char) : Option Char :=
  if c = 'a' then some '\x07'
  else if c = 'b' then some '\x08'
  else if c = 'f' then some '\x0c'
  else if c = 'n' then some '\n'
  else if c = 'r' then some '\r'
  else if c = 't' then some '\t'
  else if c = 'v' then some '\x0b'
  else none

/-- An octal digit. -/
def isOctDigit (c : Char) : Bool := '0' ≤ c && c ≤ '7'

/-- Worker for `pyReplTemplate`. -/
def pyReplTemplateAux : TplMode → List Char → Option (List Char)
  | .normal, [] => some []
  | .esc, [] => none
  | .oct _ v, [] => some [Char.ofNat v]
  | .normal, c :: r =>
    if c = '\\' then pyReplTemplateAux .esc r
    else (pyReplTemplateAux .normal r).map (fun l => c :: l)
  | .esc, c :: r =>
    if c = '\\' then (pyReplTemplateAux .normal r).map (fun l => '\\' :: l)
    else
      match escCharMap c with
      | some e => (pyReplTemplateAux .normal r).map (fun l => e :: l)
      | none =>
        if c = '0' then pyReplTemplateAux (.oct 0 0) r
        else if c.isDigit then none
        else if c.isAlpha then none
        else (pyReplTemplateAux .normal r).map (fun l => '\\' :: c :: l)
  | .oct k v, c :: r =>
    if k < 2 && isOctDigit c then
      pyReplTemplateAux (.oct (k + 1) (v * 8 + (c.toNat - 48))) r
    else if c = '\\' then
      (pyReplTemplateAux .esc r).map (fun l => Char.ofNat v :: l)
    else
      (pyReplTemplateAux .normal r).map (fun l => Char.ofNat v :: c :: l)

/-- Model of the replacement-template parsing that `re.sub` performs on
its replacement string before substituting (line 203): `\\` and the
control escapes are decoded, `\0` starts an octal escape, an unknown
escape of a letter or a digit group reference is an error (`re.error`,
`some _` never returned) — the patterns `edit_text` compiles have no
capturing group, so every numeric reference raises `invalid group
reference` and a bare `\g` raises `missing <` (the whole-match form
`\g<0>` is outside this model); an escaped non-alphanumeric character
is left alone.  A template without any backslash parses to itself. -/
def pyReplTemplate (l : List Char) : Option (List Char) :=
  pyReplTemplateAux .normal l

/-! ## Helper lemmas -/

theorem foldl_tokenResult_eq_filterMap (text : String) (toks : List String)
    (acc : List String) :
    toks.foldl
      (fun acc tok =>
        match tokenResult text tok with
        | some url => acc ++ [url]
        | none => acc) acc = acc ++ toks.filterMap (tokenResult text) := by
  induction toks generalizing acc with
  | nil => simp
  | cons t ts ih =>
    cases h : tokenResult text t with
    | some url => simp [List.foldl_cons, h, ih, List.filterMap_cons]
    | none => simp [List.foldl_cons, h, ih, List.filterMap_cons]

theorem get_urls_eq_filterMap (findUrls : String → List String) (text : String) :
    get_urls_to_archive_from_text findUrls text =
      (findUrls text).filterMap (tokenResult text) := by
  unfold get_urls_to_archive_from_text
  simpa using foldl_tokenResult_eq_filterMap text (findUrls text) []

theorem tokenResult_eq_some {text tok u : String}
    (h : tokenResult text tok = some u) :
    stripToken tok = u ∧
      (∃ hh, urlparseHostname u = some hh ∧ hh ∉ IGNORED_HOSTS) ∧
      linkArchivedSearch u text = false := by
  have h' : (match urlparseHostname (stripToken tok) with
      | some hv =>
        if hv ∈ IGNORED_HOSTS then none
        else if linkArchivedSearch (stripToken tok) text = true then none
        else some (stripToken tok)
      | none => none) = some u := h
  cases hh : urlparseHostname (stripToken tok) with
  | none =>
    rw [hh] at h'
    exact absurd h' (by simp)
  | some hv =>
    rw [hh] at h'
    have h2 : (if hv ∈ IGNORED_HOSTS then none
        else if linkArchivedSearch (stripToken tok) text = true then none
        else some (stripToken tok)) = some u := h'
    by_cases hig : hv ∈ IGNORED_HOSTS
    · simp [hig] at h2
    · by_cases harch : linkArchivedSearch (stripToken tok) text = true
      · simp [hig, harch] at h2
      · rw [if_neg hig, if_neg harch, Option.some.injEq] at h2
        subst h2
        exact ⟨rfl, ⟨hv, hh, hig⟩, by simpa using harch⟩

theorem mem_get_urls {findUrls : String → List String} {text u : String} :
    u ∈ get_urls_to_archive_from_text findUrls text ↔
      ∃ tok ∈ findUrls text, tokenResult text tok = some u := by
  rw [get_urls_eq_filterMap]
  exact List.mem_filterMap

theorem not_mem_get_urls_of_archived {findUrls : String → List String} {text u : String}
    (h : linkArchivedSearch u text = true) :
    u ∉ get_urls_to_archive_from_text findUrls text := by
  intro hmem
  obtain ⟨tok, _, htok⟩ := mem_get_urls.mp hmem
  obtain ⟨-, -, hfalse⟩ := tokenResult_eq_some htok
  rw [h] at hfalse
  exact Bool.noConfusion hfalse

theorem mem_dotStarStop {stop rest : List Char} (hstop : stop ≠ []) :
    ∀ mid : List Char, '\n' ∉ mid → rest ∈ dotStarStop stop (mid ++ stop ++ rest)
  | [], _ => by
    obtain ⟨s, ss, rfl⟩ : ∃ s ss, stop = s :: ss := by
      cases stop with
      | nil => exact absurd rfl hstop
      | cons s ss => exact ⟨s, ss, rfl⟩
    simp only [List.nil_append, List.cons_append, dotStarStop]
    rw [if_pos (by simp [List.isPrefixOf_iff_prefix, List.prefix_append])]
    simp [List.drop_left]
  | c :: mid', hnl => by
    have hc : c ≠ '\n' := fun h => hnl (h ▸ List.mem_cons_self c mid')
    have hmid' : '\n' ∉ mid' := fun h => hnl (List.mem_cons_of_mem c h)
    simp only [List.cons_append, dotStarStop, if_neg hc]
    exact List.mem_append_right _ (mem_dotStarStop hstop mid' hmid')

theorem archiveTailHere_intro {c : Char} {mid rest : List Char}
    (hc : isWS c = true) (hmid : '\n' ∉ mid) :
    archiveTailHere (c :: ("([[".toList ++ (mid ++ ("|Archive]])".toList ++ rest)))) = true := by
  have hpre : ("([[".toList).isPrefixOf
      ("([[".toList ++ (mid ++ ("|Archive]])".toList ++ rest))) = true := by
    rw [List.isPrefixOf_iff_prefix]; exact List.prefix_append _ _
  have hdrop : ("([[".toList ++ (mid ++ ("|Archive]])".toList ++ rest))).drop 3 =
      mid ++ ("|Archive]])".toList ++ rest) :=
    List.drop_left "([[".toList (mid ++ ("|Archive]])".toList ++ rest))
  have hne : (dotStarStop ("|Archive]])".toList)
      (mid ++ ("|Archive]])".toList ++ rest))).isEmpty = false := by
    rw [List.isEmpty_eq_false_iff_exists_mem]
    refine ⟨rest, ?_⟩
    rw [← List.append_assoc]
    exact @mem_dotStarStop "|Archive]])".toList rest (by simp) mid hmid
  simp only [archiveTailHere, hc, hpre, hdrop, hne, Bool.true_and, Bool.not_false]


theorem self_mem_colonSkips (l : List Char) : l ∈ colonSkips l := by
  unfold colonSkips
  split <;> simp

theorem archivedBare_intro {u : List Char} {c : Char} {mid rest : List Char}
    (hc : isWS c = true) (hmid : '\n' ∉ mid) :
    archivedBare u (u ++ c :: ("([[".toList ++ (mid ++ ("|Archive]])".toList ++ rest)))) = true := by
  unfold archivedBare
  rw [List.any_eq_true]
  refine ⟨u ++ c :: ("([[".toList ++ (mid ++ ("|Archive]])".toList ++ rest))),
    self_mem_colonSkips _, ?_⟩
  rw [Bool.and_eq_true]
  constructor
  · rw [List.isPrefixOf_iff_prefix]
    exact List.prefix_append u _
  · rw [List.drop_left u _]
    exact archiveTailHere_intro hc hmid

theorem linkArchived_of_annot {u pre mid post : List Char} {c : Char} {t : String}
    (hc : isWS c = true) (hmid : '\n' ∉ mid)
    (ht : t.toList = pre ++ (u ++ c :: ("([[".toList ++ (mid ++ ("|Archive]])".toList ++ post))))) :
    linkArchivedSearch (String.mk u) t = true := by
  unfold linkArchivedSearch
  rw [List.any_eq_true]
  refine ⟨u ++ c :: ("([[".toList ++ (mid ++ ("|Archive]])".toList ++ post))), ?_, ?_⟩
  · rw [List.mem_tails, ht]
    exact List.suffix_append pre _
  · have : (String.mk u).toList = u := rfl
    rw [this]
    rw [Bool.or_eq_true]
    exact Or.inl (archivedBare_intro hc hmid)

theorem archivedBracketed_intro {u lab : List Char} {c : Char} {mid rest : List Char}
    (hc : isWS c = true) (hlab : '\n' ∉ lab) (hmid : '\n' ∉ mid) :
    archivedBracketed u
      ("[[".toList ++ (u ++ ("|".toList ++ (lab ++ ("]]".toList ++
        c :: ("([[".toList ++ (mid ++ ("|Archive]])".toList ++ rest)))))))) = true := by
  unfold archivedBracketed
  have h2 : (("[[".toList ++ (u ++ ("|".toList ++ (lab ++ ("]]".toList ++
      c :: ("([[".toList ++ (mid ++ ("|Archive]])".toList ++ rest)))))))).drop 2) =
      u ++ ("|".toList ++ (lab ++ ("]]".toList ++
        c :: ("([[".toList ++ (mid ++ ("|Archive]])".toList ++ rest)))))) :=
    List.drop_left "[[".toList _
  rw [h2, List.drop_left u _]
  have h1 : (("|".toList ++ (lab ++ ("]]".toList ++
      c :: ("([[".toList ++ (mid ++ ("|Archive]])".toList ++ rest)))))).drop 1) =
      lab ++ ("]]".toList ++ c :: ("([[".toList ++ (mid ++ ("|Archive]])".toList ++ rest)))) :=
    List.drop_left "|".toList _
  rw [h1]
  have hpre1 : ("[[".toList).isPrefixOf ("[[".toList ++ (u ++ ("|".toList ++ (lab ++
      ("]]".toList ++ c :: ("([[".toList ++ (mid ++ ("|Archive]])".toList ++ rest)))))))) = true := by
    rw [List.isPrefixOf_iff_prefix]; exact List.prefix_append _ _
  have hpre2 : u.isPrefixOf (u ++ ("|".toList ++ (lab ++ ("]]".toList ++
      c :: ("([[".toList ++ (mid ++ ("|Archive]])".toList ++ rest))))))) = true := by
    rw [List.isPrefixOf_iff_prefix]; exact List.prefix_append _ _
  have hpre3 : ("|".toList).isPrefixOf ("|".toList ++ (lab ++ ("]]".toList ++
      c :: ("([[".toList ++ (mid ++ ("|Archive]])".toList ++ rest)))))) = true := by
    rw [List.isPrefixOf_iff_prefix]; exact List.prefix_append _ _
  have hany : ((dotStarStop ("]]".toList) (lab ++ ("]]".toList ++
      c :: ("([[".toList ++ (mid ++ ("|Archive]])".toList ++ rest)))))).any
        archiveTailHere) = true := by
    rw [List.any_eq_true]
    refine ⟨c :: ("([[".toList ++ (mid ++ ("|Archive]])".toList ++ rest))), ?_, ?_⟩
    · rw [← List.append_assoc]
      exact @mem_dotStarStop "]]".toList _ (by simp) lab hlab
    · exact archiveTailHere_intro hc hmid
  rw [hpre1, hpre2, hpre3, hany]
  rfl

theorem linkArchived_of_bracket_annot {u pre lab mid post : List Char} {c : Char} {t : String}
    (hc : isWS c = true) (hlab : '\n' ∉ lab) (hmid : '\n' ∉ mid)
    (ht : t.toList = pre ++ ("[[".toList ++ (u ++ ("|".toList ++ (lab ++ ("]]".toList ++
      c :: ("([[".toList ++ (mid ++ ("|Archive]])".toList ++ post))))))))) :
    linkArchivedSearch (String.mk u) t = true := by
  unfold linkArchivedSearch
  rw [List.any_eq_true]
  refine ⟨"[[".toList ++ (u ++ ("|".toList ++ (lab ++ ("]]".toList ++
      c :: ("([[".toList ++ (mid ++ ("|Archive]])".toList ++ post))))))), ?_, ?_⟩
  · rw [List.mem_tails, ht]
    exact List.suffix_append pre _
  · have : (String.mk u).toList = u := rfl
    rw [this, Bool.or_eq_true]
    exact Or.inr (archivedBracketed_intro hc hlab hmid)


theorem matchU_self_append : ∀ (u b : List Char), matchU u (u ++ b) = true
  | [], _ => rfl
  | p :: ur, b => by
    simp only [List.cons_append, matchU]
    rw [Bool.and_eq_true]
    refine ⟨?_, matchU_self_append ur b⟩
    by_cases hp : p = '.'
    · subst hp; simp
    · simp [hp]

theorem matchU_isPrefixOf_of_noDot :
    ∀ {u l : List Char}, '.' ∉ u → matchU u l = true → u.isPrefixOf l = true
  | [], _, _, _ => by simp [List.isPrefixOf_iff_prefix]
  | p :: ur, [], _, h => by simp [matchU] at h
  | p :: ur, c :: lr, hdot, h => by
    have hp : p ≠ '.' := fun hh => hdot (hh ▸ List.mem_cons_self p ur)
    simp only [matchU, if_neg hp, Bool.and_eq_true, decide_eq_true_eq] at h
    obtain ⟨rfl, h2⟩ := h
    have ih := matchU_isPrefixOf_of_noDot
      (fun hh => hdot (List.mem_cons_of_mem _ hh)) h2
    simp only [List.isPrefixOf_cons₂_self]
    simpa [List.isPrefixOf_iff_prefix] using
      (List.isPrefixOf_iff_prefix.mp ih)

theorem nsAux_sound (u b : List Char) (hu : u ≠ []) (hb : wsOrEnd b = true) :
    ∀ (a : List Char) (prev : Option Char),
      (a = [] → boundaryOk prev = true) →
      (∀ a2 c, a = a2 ++ [c] → isWS c = true) →
      normalSearchAux u prev (a ++ (u ++ b)) = true := by
  intro a
  induction a with
  | nil =>
    intro prev h1 _
    obtain ⟨p, ur, rfl⟩ : ∃ p ur, u = p :: ur := by
      cases u with
      | nil => exact absurd rfl hu
      | cons p ur => exact ⟨p, ur, rfl⟩
    have hdrop : ((p :: ur) ++ b).drop (p :: ur).length = b := List.drop_left _ _
    have hself := matchU_self_append (p :: ur) b
    show ((boundaryOk prev && matchU (p :: ur) ((p :: ur) ++ b) &&
        wsOrEnd (((p :: ur) ++ b).drop (p :: ur).length)) ||
      normalSearchAux (p :: ur) (some p) (ur ++ b)) = true
    rw [h1 rfl, hself, hdrop, hb]
    rfl
  | cons c a' ih =>
    intro prev h1 h2
    have hrec : normalSearchAux u (some c) (a' ++ (u ++ b)) = true := by
      refine ih (some c) (fun ha' => ?_) (fun a2 c2 hc2 => ?_)
      · subst ha'
        exact h2 [] c rfl
      · exact h2 (c :: a2) c2 (by rw [hc2]; rfl)
    show ((boundaryOk prev && matchU u ((c :: a') ++ (u ++ b)) &&
        wsOrEnd (((c :: a') ++ (u ++ b)).drop u.length)) ||
      normalSearchAux u (some c) (a' ++ (u ++ b))) = true
    rw [hrec, Bool.or_true]

theorem nsAux_complete (u : List Char) (hdot : '.' ∉ u) :
    ∀ (l : List Char) (prev : Option Char), normalSearchAux u prev l = true →
      ∃ a b, l = a ++ (u ++ b) ∧
        ((a = [] ∧ boundaryOk prev = true) ∨ ∃ a2 c, a = a2 ++ [c] ∧ isWS c = true) ∧
        wsOrEnd b = true := by
  intro l
  induction l with
  | nil =>
    intro prev h
    have h' : (boundaryOk prev && matchU u []) = true := h
    rw [Bool.and_eq_true] at h'
    have hu : u = [] := by
      cases u with
      | nil => rfl
      | cons p ur => simp [matchU] at h'
    subst hu
    exact ⟨[], [], rfl, Or.inl ⟨rfl, h'.1⟩, rfl⟩
  | cons c r ih =>
    intro prev h
    have h' : ((boundaryOk prev && matchU u (c :: r) &&
        wsOrEnd ((c :: r).drop u.length)) ||
      normalSearchAux u (some c) r) = true := h
    rw [Bool.or_eq_true] at h'
    rcases h' with h' | h'
    · rw [Bool.and_eq_true, Bool.and_eq_true] at h'
      obtain ⟨⟨hbnd, hmat⟩, hws⟩ := h'
      obtain ⟨rest, hrest⟩ :=
        List.isPrefixOf_iff_prefix.mp (matchU_isPrefixOf_of_noDot hdot hmat)
      have hdrop : (c :: r).drop u.length = rest := by
        rw [← hrest]
        exact List.drop_left u rest
      refine ⟨[], rest, by rw [← hrest]; rfl, Or.inl ⟨rfl, hbnd⟩, ?_⟩
      rw [← hdrop]
      exact hws
    · obtain ⟨a, b, heq, hbound, hws⟩ := ih (some c) h'
      refine ⟨c :: a, b, by rw [heq]; rfl, ?_, hws⟩
      rcases hbound with ⟨rfl, hb⟩ | ⟨a2, c2, rfl, hc2⟩
      · exact Or.inr ⟨[], c, rfl, hb⟩
      · exact Or.inr ⟨c :: a2, c2, rfl, hc2⟩

theorem replFuel_congr (p : Char) (ps new : List Char) :
    ∀ (f1 f2 : Nat) (l : List Char), l.length ≤ f1 → l.length ≤ f2 →
      replFuel p ps new f1 l = replFuel p ps new f2 l := by
  intro f1
  induction f1 with
  | zero =>
    intro f2 l h1 _
    have hl : l = [] := List.eq_nil_of_length_eq_zero (Nat.le_zero.mp h1)
    subst hl
    cases f2 <;> rfl
  | succ k1 ih =>
    intro f2 l h1 h2
    cases l with
    | nil => cases f2 <;> rfl
    | cons c r =>
      cases f2 with
      | zero => simp at h2
      | succ k2 =>
        show (if (p :: ps).isPrefixOf (c :: r) then
            new ++ replFuel p ps new k1 (r.drop ps.length)
          else c :: replFuel p ps new k1 r) =
          (if (p :: ps).isPrefixOf (c :: r) then
            new ++ replFuel p ps new k2 (r.drop ps.length)
          else c :: replFuel p ps new k2 r)
        have hr1 : r.length ≤ k1 := by
          have := h1; simp only [List.length_cons] at this; omega
        have hr2 : r.length ≤ k2 := by
          have := h2; simp only [List.length_cons] at this; omega
        have hd : (r.drop ps.length).length ≤ r.length := by
          rw [List.length_drop]; omega
        by_cases hp : (p :: ps).isPrefixOf (c :: r) = true
        · rw [if_pos hp, if_pos hp,
            ih k2 (r.drop ps.length) (le_trans hd hr1) (le_trans hd hr2)]
        · rw [if_neg hp, if_neg hp, ih k2 r hr1 hr2]

theorem replaceAllAux_nil (p : Char) (ps new : List Char) :
    replaceAllAux p ps new [] = [] := rfl

theorem replaceAllAux_cons (p : Char) (ps new : List Char) (c : Char) (r : List Char) :
    replaceAllAux p ps new (c :: r) =
      if (p :: ps).isPrefixOf (c :: r) then
        new ++ replaceAllAux p ps new (r.drop ps.length)
      else c :: replaceAllAux p ps new r := by
  show (if (p :: ps).isPrefixOf (c :: r) then
      new ++ replFuel p ps new r.length (r.drop ps.length)
    else c :: replFuel p ps new r.length r) = _
  unfold replaceAllAux
  have hd : (r.drop ps.length).length ≤ r.length := by
    rw [List.length_drop]; omega
  by_cases hp : (p :: ps).isPrefixOf (c :: r) = true
  · rw [if_pos hp, if_pos hp,
      replFuel_congr p ps new r.length (r.drop ps.length).length _ hd le_rfl]
  · rw [if_neg hp, if_neg hp]

theorem replaceAllAux_of_not_occurs (p : Char) (ps new : List Char) :
    ∀ l : List Char, ¬ Occurs (p :: ps) l → replaceAllAux p ps new l = l := by
  intro l
  induction l with
  | nil => intro _; exact replaceAllAux_nil p ps new
  | cons c r ih =>
    intro hno
    have hpre : (p :: ps).isPrefixOf (c :: r) = false := by
      by_contra hcon
      rw [Bool.not_eq_false, List.isPrefixOf_iff_prefix] at hcon
      obtain ⟨rest, hrest⟩ := hcon
      exact hno ⟨[], rest, by rw [← hrest]; rfl⟩
    rw [replaceAllAux_cons, if_neg (by rw [hpre]; exact Bool.noConfusion)]
    rw [ih (fun hocc => ?_)]
    obtain ⟨a, b, hab⟩ := hocc
    exact hno ⟨c :: a, b, by rw [hab]; rfl⟩

theorem replaceAllAux_contains (p : Char) (ps new : List Char) :
    ∀ l : List Char, Occurs (p :: ps) l →
      ∃ a2 b2, replaceAllAux p ps new l = a2 ++ (new ++ b2) := by
  intro l
  induction l with
  | nil =>
    intro hocc
    obtain ⟨a, b, hab⟩ := hocc
    exact absurd hab.symm (by simp)
  | cons c r ih =>
    intro hocc
    by_cases hpre : (p :: ps).isPrefixOf (c :: r) = true
    · refine ⟨[], replaceAllAux p ps new (r.drop ps.length), ?_⟩
      rw [replaceAllAux_cons, if_pos hpre]
      rfl
    · obtain ⟨a, b, hab⟩ := hocc
      obtain ⟨a2, rfl⟩ : ∃ a2, a = c :: a2 := by
        cases a with
        | nil =>
          exfalso
          apply hpre
          rw [List.isPrefixOf_iff_prefix]
          exact ⟨b, by rw [List.nil_append] at hab; rw [← hab]⟩
        | cons c' a2 =>
          have : c' = c := by
            have := hab
            simp only [List.cons_append, List.cons.injEq] at this
            exact this.1.symm
          exact ⟨a2, by rw [this]⟩
      have hr : Occurs (p :: ps) r :=
        ⟨a2, b, by
          have := hab
          simp only [List.cons_append, List.cons.injEq] at this
          exact this.2⟩
      obtain ⟨a3, b3, hres⟩ := ih hr
      refine ⟨c :: a3, b3, ?_⟩
      rw [replaceAllAux_cons, if_neg hpre, hres]
      rfl


theorem replaceAllAux_leftmost (p : Char) (ps new : List Char) :
    ∀ (a b : List Char),
      (∀ a' b', a ++ ((p :: ps) ++ b) = a' ++ ((p :: ps) ++ b') → a.length ≤ a'.length) →
      replaceAllAux p ps new (a ++ ((p :: ps) ++ b)) =
        a ++ (new ++ replaceAllAux p ps new b) := by
  intro a
  induction a with
  | nil =>
    intro b _
    rw [List.nil_append, List.nil_append]
    have hpre : (p :: ps).isPrefixOf ((p :: ps) ++ b) = true := by
      rw [List.isPrefixOf_iff_prefix]; exact List.prefix_append _ _
    rw [show ((p :: ps) ++ b) = p :: (ps ++ b) from rfl] at hpre ⊢
    rw [replaceAllAux_cons, if_pos hpre, List.drop_left ps b]
  | cons c a2 ih =>
    intro b hmin
    have hnpre : ¬ (p :: ps).isPrefixOf (c :: (a2 ++ ((p :: ps) ++ b))) = true := by
      intro hcon
      rw [List.isPrefixOf_iff_prefix] at hcon
      obtain ⟨rest, hrest⟩ := hcon
      have := hmin [] rest (by rw [List.nil_append, hrest]; rfl)
      simp at this
    have hmin2 : ∀ a' b', a2 ++ ((p :: ps) ++ b) = a' ++ ((p :: ps) ++ b') →
        a2.length ≤ a'.length := by
      intro a' b' heq
      have := hmin (c :: a') b'
        (by show c :: (a2 ++ ((p :: ps) ++ b)) = c :: (a' ++ ((p :: ps) ++ b')); rw [heq])
      simpa using this
    rw [show ((c :: a2) ++ ((p :: ps) ++ b)) = c :: (a2 ++ ((p :: ps) ++ b)) from rfl]
    rw [replaceAllAux_cons, if_neg hnpre, ih b hmin2]
    rfl

theorem pySubLiteral_toList {pat new text : String} {p : Char} {ps : List Char}
    (h : pat.toList = p :: ps) :
    (pySubLiteral pat new text).toList = replaceAllAux p ps new.toList text.toList := by
  unfold pySubLiteral
  rw [h]
  rfl

theorem editOne_integrated {t span : String} {au : ArchivedUrl}
    (h : integratedSearch au.original_url t = some span) :
    editOne t au = pySubLiteral span (span ++ archiveInsertion au.archived_url) t := by
  unfold editOne
  rw [h]

theorem editOne_normal {t : String} {au : ArchivedUrl}
    (h1 : integratedSearch au.original_url t = none)
    (h2 : normalSearch au.original_url t = true) :
    editOne t au = pySubLiteral au.original_url
      (au.original_url ++ archiveInsertion au.archived_url) t := by
  unfold editOne
  rw [h1]
  simp [h2]

theorem editOne_skip {t : String} {au : ArchivedUrl}
    (h1 : integratedSearch au.original_url t = none)
    (h2 : normalSearch au.original_url t = false) :
    editOne t au = t := by
  unfold editOne
  rw [h1]
  simp [h2]

theorem archiveInsertion_toList (a : String) :
    (archiveInsertion a).toList =
      ' ' :: ("([[".toList ++ (a.toList ++ "|Archive]])".toList)) := by
  show (" ([[" ++ a ++ "|Archive]])").data =
    ' ' :: ("([[".toList ++ (a.toList ++ "|Archive]])".toList))
  rw [String.data_append, String.data_append, List.append_assoc]
  rfl


theorem tokenResult_eq (text tok : String) :
    tokenResult text tok =
      (match urlparseHostname (stripToken tok) with
       | some hv =>
         if hv ∈ IGNORED_HOSTS then none
         else if linkArchivedSearch (stripToken tok) text = true then none
         else some (stripToken tok)
       | none => none) := rfl

theorem urlparseHostname_ne_empty {u hh : String}
    (h : urlparseHostname u = some hh) : hh ≠ "" := by
  unfold urlparseHostname at h
  by_cases hz : hostOfNetloc (netlocOf (afterScheme u.toList)) = []
  · rw [if_pos hz] at h
    exact absurd h (by simp)
  · rw [if_neg hz] at h
    have hinj := Option.some.inj h
    intro hcon
    rw [hcon] at hinj
    have hdata : (hostOfNetloc (netlocOf (afterScheme u.toList))).map Char.toLower = [] :=
      congrArg String.data hinj
    rw [List.map_eq_nil_iff] at hdata
    exact hz hdata

theorem parenScan_skip : ∀ (l : List Char), (∀ c ∈ l, c ∉ pyRegexSpecial) →
    ∀ (rest : List Char) (d : Nat),
      parenScan (l ++ rest) d false false = parenScan rest d false false := by
  intro l
  induction l with
  | nil => intro _ rest d; rfl
  | cons c r ih =>
    intro h rest d
    have hc : c ∉ pyRegexSpecial := h c (List.mem_cons_self c r)
    have h1 : c ≠ '\\' := fun hh => hc (by rw [hh]; decide)
    have h2 : c ≠ '(' := fun hh => hc (by rw [hh]; decide)
    have h3 : c ≠ ')' := fun hh => hc (by rw [hh]; decide)
    have h4 : c ≠ '[' := fun hh => hc (by rw [hh]; decide)
    show parenScan (c :: (r ++ rest)) d false false = parenScan rest d false false
    rw [show parenScan (c :: (r ++ rest)) d false false =
      parenScan (r ++ rest) d false false by simp [parenScan, h1, h2, h3, h4]]
    exact ih (fun c2 hc2 => h c2 (List.mem_cons_of_mem _ hc2)) rest d


/-! ## Claim theorems -/

/-- C8: the Rewriter satisfies the three doctest examples of `edit_text`
(zl2wbm.py lines 172-177): a bare link gets the annotation appended, a
bracketed link gets it appended after the whole bracketed span, and a
text without the link is returned unchanged. -/
theorem edit_text_doctests :
    edit_text "Normal link: http://google.com"
        [⟨"http://google.com", "http://google.archive"⟩] =
      "Normal link: http://google.com ([[http://google.archive|Archive]])" ∧
    edit_text "Integrated link: [[http://google.com|Google]]"
        [⟨"http://google.com", "http://google.archive"⟩] =
      "Integrated link: [[http://google.com|Google]] ([[http://google.archive|Archive]])" ∧
    edit_text "No links in this text!"
        [⟨"http://google.com", "http://google.archive"⟩] =
      "No links in this text!" := ⟨rfl, rfl, rfl⟩

/-- C4: the claim is right and the code is wrong.  A file whose first
line is not the zim marker executes `return` (zl2wbm.py line 220)
instead of `continue`, so the whole traversal stops: with a
non-conforming first file followed by a valid one, nothing is processed
(first conjunct), while the valid file alone is processed (second
conjunct).  The decode-error branch is no clean skip either: line 216
passes a `file` keyword that `Logger.error` rejects, so with the ERROR
level enabled (the default) the crawl aborts with `TypeError` (third
conjunct); the `continue` of line 217 is reached only when logging is
set above ERROR (fourth conjunct). -/
theorem crawl_stops_on_invalid_first_line :
    crawl_notebook_and_archive_links (fun _ => []) (mkService ⟨none⟩ ⟨none, none, none⟩) 0
        true [⟨.ok "not a zim file"⟩, ⟨.ok "Content-Type: text/x-zim-wiki\nbody"⟩] =
      .ok [] ∧
    crawl_notebook_and_archive_links (fun _ => []) (mkService ⟨none⟩ ⟨none, none, none⟩) 0
        true [⟨.ok "Content-Type: text/x-zim-wiki\nbody"⟩] =
      .ok ["Content-Type: text/x-zim-wiki\nbody"] ∧
    crawl_notebook_and_archive_links (fun _ => []) (mkService ⟨none⟩ ⟨none, none, none⟩) 0
        true [⟨.error ()⟩, ⟨.ok "Content-Type: text/x-zim-wiki\nbody"⟩] =
      .error .typeError ∧
    crawl_notebook_and_archive_links (fun _ => []) (mkService ⟨none⟩ ⟨none, none, none⟩) 0
        false [⟨.error ()⟩, ⟨.ok "Content-Type: text/x-zim-wiki\nbody"⟩] =
      .ok ["Content-Type: text/x-zim-wiki\nbody"] := ⟨rfl, rfl, rfl, rfl⟩


/-- C2 is false as stated: with the ordinary text `foo,http://google.com`
the url is preceded by a comma, so neither rewriter regex matches (both
require a whitespace or start-of-string boundary) and the text is
returned unchanged, while the extractor (urlextract tokenises at the
comma and returns the url, modelled by the `findUrls` argument) still
reports the url of the pair: re-running the pipeline is not a no-op. -/
theorem pipeline_not_idempotent_cex :
    edit_text "foo,http://google.com"
        [⟨"http://google.com", "http://google.archive"⟩] = "foo,http://google.com" ∧
    "http://google.com" ∈ get_urls_to_archive_from_text (fun _ => ["http://google.com"])
      (edit_text "foo,http://google.com"
        [⟨"http://google.com", "http://google.archive"⟩]) := ⟨rfl, by decide⟩

/-- C2 (amended): for a pair whose original url really is annotated by
the Rewriter — the url occurs in `T` bounded by whitespace or the string
ends, no bracketed `[[url|..]]` match takes precedence, and the archive
url contains no newline (it is a url) — running the Extractor on the
rewritten text never returns that url again, whatever the tokeniser
finds.  The url carries no regex special character other than the dot
(`onlyDotSpecial`), the domain on which the unescaped interpolation of
line 188 matches exactly the literal bounded occurrence, and neither
url contains a backslash, so the replacement template of line 203 is
taken literally by `re.sub` (see `pyReplTemplate`). -/
theorem extractor_drops_annotated_url (findUrls : String → List String)
    (T u a : String) (pre post : List Char)
    (hu : u.toList ≠ [])
    (_hdot : onlyDotSpecial u = true)
    (_hab : '\\' ∉ a.toList)
    (hT : T.toList = pre ++ (u.toList ++ post))
    (hpre : pre = [] ∨ ∃ p2 c, pre = p2 ++ [c] ∧ isWS c = true)
    (hpost : wsOrEnd post = true)
    (hnl : '\n' ∉ a.toList)
    (hint : integratedSearch u T = none) :
    u ∉ get_urls_to_archive_from_text findUrls (edit_text T [⟨u, a⟩]) := by
  have hns : normalSearch u T = true := by
    unfold normalSearch
    rw [hT]
    refine nsAux_sound u.toList post hu hpost pre none ?_ ?_
    · intro _; rfl
    · intro a2 c hdecomp
      rcases hpre with rfl | ⟨p2, c2, rfl, hc2⟩
      · exact absurd hdecomp.symm (by simp)
      · have e1 : (a2 ++ [c]).getLast? = some c := List.getLast?_concat a2
        have e2 : (p2 ++ [c2]).getLast? = some c2 := List.getLast?_concat p2
        rw [hdecomp, e1] at e2
        rw [Option.some.inj e2]
        exact hc2
  have hedit : edit_text T [⟨u, a⟩] = pySubLiteral u
      (u ++ archiveInsertion a) T := by
    show editOne T ⟨u, a⟩ = _
    exact editOne_normal hint hns
  obtain ⟨p, ps, hu2⟩ : ∃ p ps, u.toList = p :: ps := by
    cases hu3 : u.toList with
    | nil => exact absurd hu3 hu
    | cons p ps => exact ⟨p, ps, rfl⟩
  have hocc : Occurs (p :: ps) T.toList :=
    ⟨pre, post, by rw [hT, hu2, List.append_assoc]⟩
  obtain ⟨a2, b2, hres⟩ := replaceAllAux_contains p ps
    (u ++ archiveInsertion a).toList T.toList hocc
  have hlist : (pySubLiteral u (u ++ archiveInsertion a) T).toList =
      a2 ++ ((u ++ archiveInsertion a).toList ++ b2) := by
    rw [pySubLiteral_toList hu2, hres]
  have hshape : (pySubLiteral u (u ++ archiveInsertion a) T).toList =
      a2 ++ (u.toList ++ ' ' :: ("([[".toList ++ (a.toList ++ ("|Archive]])".toList ++ b2)))) := by
    rw [hlist]
    rw [show (u ++ archiveInsertion a).toList = u.toList ++ (archiveInsertion a).toList from
      String.data_append u (archiveInsertion a)]
    rw [archiveInsertion_toList]
    simp [List.append_assoc]
  have harch : linkArchivedSearch u (pySubLiteral u (u ++ archiveInsertion a) T) = true := by
    have := @linkArchived_of_annot u.toList a2 a.toList b2 ' '
      (pySubLiteral u (u ++ archiveInsertion a) T) rfl hnl hshape
    exact this
  rw [hedit]
  exact not_mem_get_urls_of_archived harch


/-- Witness for the amended C2 theorem at a concrete annotated pair. -/
theorem extractor_drops_annotated_url_witness :
    "http://g/x" ∉ get_urls_to_archive_from_text (fun _ => ["http://g/x"])
      (edit_text "a http://g/x b" [⟨"http://g/x", "http://w/a"⟩]) :=
  extractor_drops_annotated_url (fun _ => ["http://g/x"]) "a http://g/x b"
    "http://g/x" "http://w/a" "a ".toList " b".toList (by decide) (by decide)
    (by decide) (by decide) (Or.inr ⟨"a".toList, ' ', by decide, by decide⟩)
    (by decide) (by decide) (by decide)

/-- C5: whenever the text contains the url immediately followed by one
whitespace character and a bracketed link whose label is Archive —
either after the bare url or after a bracketed `[[url|label]]` form —
the Extractor excludes that url, for any tokeniser output.  The url is
matched literally because line 160 escapes it with `re.escape` (the
witness instantiates a url containing `?`); the archive url and the
label carry no newline, being a url and a single-line wiki label. -/
theorem extractor_excludes_archived (findUrls : String → List String)
    (T u a : String) (pre lab post : List Char) (c : Char)
    (hc : isWS c = true) (ha : '\n' ∉ a.toList) (hlab : '\n' ∉ lab)
    (hT : T.toList = pre ++ (u.toList ++ c ::
        ("([[".toList ++ (a.toList ++ ("|Archive]])".toList ++ post)))) ∨
      T.toList = pre ++ ("[[".toList ++ (u.toList ++ ("|".toList ++ (lab ++
        ("]]".toList ++ c ::
          ("([[".toList ++ (a.toList ++ ("|Archive]])".toList ++ post))))))))) :
    u ∉ get_urls_to_archive_from_text findUrls T := by
  rcases hT with h | h
  · exact not_mem_get_urls_of_archived
      (@linkArchived_of_annot u.toList pre a.toList post c T hc ha h)
  · exact not_mem_get_urls_of_archived
      (@linkArchived_of_bracket_annot u.toList pre lab a.toList post c T hc hlab ha h)

/-- Witness for C5 with a url containing regex metacharacters. -/
theorem extractor_excludes_archived_witness :
    "http://e.com/a?q=1" ∉ get_urls_to_archive_from_text
      (fun _ => ["http://e.com/a?q=1"])
      "x http://e.com/a?q=1 ([[http://w/a|Archive]]) y" :=
  extractor_excludes_archived (fun _ => ["http://e.com/a?q=1"])
    "x http://e.com/a?q=1 ([[http://w/a|Archive]]) y" "http://e.com/a?q=1" "http://w/a"
    "x ".toList [] " y".toList ' ' (by decide) (by decide) (by decide)
    (Or.inl (by decide))


theorem count_filterMap_tokenResult (text u : String)
    (hcond : ∀ tok, tokenResult text tok = some u ↔ stripToken tok = u) :
    ∀ toks : List String, ((toks.filterMap (tokenResult text)).count u) =
      (toks.filter (fun tok => stripToken tok = u)).length := by
  intro toks
  induction toks with
  | nil => rfl
  | cons t ts ih =>
    rw [List.filterMap_cons, List.filter_cons]
    cases h : tokenResult text t with
    | none =>
      have hne : ¬ stripToken t = u := fun hh => by
        rw [(hcond t).mpr hh] at h
        exact Option.noConfusion h
      rw [if_neg (by simpa using hne)]
      exact ih
    | some v =>
      by_cases hv : v = u
      · have hst : stripToken t = u := (hcond t).mp (by rw [h, hv])
        rw [if_pos (by simpa using hst), hv, List.count_cons_self, List.length_cons, ih]
      · have hne : ¬ stripToken t = u := fun hh => by
          have h2 := (hcond t).mpr hh
          rw [h] at h2
          exact hv (Option.some.inj h2)
        rw [if_neg (by simpa using hne), List.count_cons_of_ne (fun hh => hv hh.symm), ih]

/-- C6 is false as stated: `only_unique=True` deduplicates raw tokens
only, and the bare and bracketed notations of the same url are distinct
tokens (the bracketed token shape is documented by the comment at
line 149).  On a text where the url occurs bare and also as
`[[url|L]]`, both tokens strip to the same url and the loop appends it
twice, so the output does not contain the bare url exactly once. -/
theorem extractor_duplicate_url_cex :
    (get_urls_to_archive_from_text
        (fun _ => ["http://g/x", "[[http://g/x|L]]"])
        "http://g/x and [[http://g/x|L]]").count "http://g/x" = 2 := by decide

/-- C6 (amended): for a url with a parseable, non-ignored hostname and
no already-archived annotation in the text, the Extractor returns it
exactly once provided the tokeniser yields exactly one token that
strips to it — which `find_urls(.., only_unique=True)` guarantees when
the url occurs in a single notation, bare occurrences being collapsed
to one token however often they repeat — and the output is exactly the
token list filtered in order (insertion order preserved, first
occurrence wins). -/
theorem extractor_unique_and_ordered (findUrls : String → List String) (T u : String)
    (hhost : ∃ hh, urlparseHostname u = some hh ∧ hh ∉ IGNORED_HOSTS)
    (hnot : linkArchivedSearch u T = false)
    (huniq : ((findUrls T).filter (fun tok => stripToken tok = u)).length = 1) :
    (get_urls_to_archive_from_text findUrls T).count u = 1 ∧
      get_urls_to_archive_from_text findUrls T =
        (findUrls T).filterMap (tokenResult T) := by
  have hcond : ∀ tok, tokenResult T tok = some u ↔ stripToken tok = u := by
    intro tok
    constructor
    · intro h; exact (tokenResult_eq_some h).1
    · intro h
      rw [tokenResult_eq, h]
      obtain ⟨hh, hsome, hig⟩ := hhost
      rw [hsome]
      show (if hh ∈ IGNORED_HOSTS then none
        else if linkArchivedSearch u T = true then none else some u) = some u
      rw [if_neg hig, if_neg (by rw [hnot]; exact Bool.noConfusion)]
  constructor
  · rw [get_urls_eq_filterMap, count_filterMap_tokenResult T u hcond (findUrls T), huniq]
  · exact get_urls_eq_filterMap findUrls T

/-- Witness for C6 on a concrete token list with one matching token. -/
theorem extractor_unique_and_ordered_witness :
    (get_urls_to_archive_from_text (fun _ => ["http://e.org/", "nohost"])
        "see http://e.org/ ok").count "http://e.org/" = 1 ∧
      get_urls_to_archive_from_text (fun _ => ["http://e.org/", "nohost"])
          "see http://e.org/ ok" =
        ["http://e.org/", "nohost"].filterMap (tokenResult "see http://e.org/ ok") :=
  extractor_unique_and_ordered (fun _ => ["http://e.org/", "nohost"])
    "see http://e.org/ ok" "http://e.org/"
    ⟨"e.org", by decide, by decide⟩ (by decide) (by decide)


/-- C7 is false as stated: when the bracketed span carries a
backslash-letter sequence in its label — here `[[http://g/y|C:\docs]]`,
an ordinary "any non-bracket label" — the span is matched (first
conjunct), but the replacement string built at line 202 fails the
template parsing that `re.sub` applies to its replacement argument, so
line 203 raises `re.error: bad escape \d` instead of producing the
text with the annotation appended. -/
theorem rewriter_bad_escape_cex :
    integratedSearch "http://g/y" "x [[http://g/y|C:\\docs]] z" =
      some "[[http://g/y|C:\\docs]]" ∧
    pyReplTemplate ("[[http://g/y|C:\\docs]]" ++ archiveInsertion "A").toList =
      none := ⟨by decide, by decide⟩

/-- C7 (amended): provided the replacement string that line 202 builds
is taken literally by the template parsing of `re.sub` (the
`pyReplTemplate` hypotheses, satisfied whenever the matched span and
the archive url contain no backslash), the bracketed form takes
precedence over the bare form (the first conjunct applies whether or
not the bare regex matches); the matched span gets the annotation
appended immediately after it and that modified span replaces every
occurrence of the exact span; with no match the pair leaves the text
unchanged.  The last two conjuncts pin down the global-replacement
semantics of line 203: identity without an occurrence, and the
leftmost-occurrence recurrence.  A replacement the template parsing
rejects raises `re.error` instead (the counterexample). -/
theorem rewriter_precedence_and_replacement (t : String) (au : ArchivedUrl) :
    (∀ span, integratedSearch au.original_url t = some span →
      pyReplTemplate (span ++ archiveInsertion au.archived_url).toList =
        some (span ++ archiveInsertion au.archived_url).toList →
      editOne t au = pySubLiteral span (span ++ archiveInsertion au.archived_url) t) ∧
    (integratedSearch au.original_url t = none →
      normalSearch au.original_url t = true →
      pyReplTemplate (au.original_url ++ archiveInsertion au.archived_url).toList =
        some (au.original_url ++ archiveInsertion au.archived_url).toList →
      editOne t au = pySubLiteral au.original_url
        (au.original_url ++ archiveInsertion au.archived_url) t) ∧
    (integratedSearch au.original_url t = none →
      normalSearch au.original_url t = false → editOne t au = t) ∧
    (∀ (pat new s : String) (p : Char) (ps : List Char), pat.toList = p :: ps →
      pyReplTemplate new.toList = some new.toList →
      ¬ Occurs pat.toList s.toList → pySubLiteral pat new s = s) ∧
    (∀ (pat new s : String) (p : Char) (ps a b : List Char), pat.toList = p :: ps →
      pyReplTemplate new.toList = some new.toList →
      s.toList = a ++ (pat.toList ++ b) →
      (∀ a2 b2, s.toList = a2 ++ (pat.toList ++ b2) → a.length ≤ a2.length) →
      (pySubLiteral pat new s).toList =
        a ++ (new.toList ++ replaceAllAux p ps new.toList b)) := by
  refine ⟨fun span h _ => editOne_integrated h,
    fun h1 h2 _ => editOne_normal h1 h2,
    fun h1 h2 => editOne_skip h1 h2, ?_, ?_⟩
  · intro pat new s p ps hpat _ hnocc
    rw [hpat] at hnocc
    apply String.ext
    show (pySubLiteral pat new s).toList = s.toList
    rw [pySubLiteral_toList hpat, replaceAllAux_of_not_occurs p ps new.toList s.toList hnocc]
  · intro pat new s p ps a b hpat _ hs hmin
    rw [hpat] at hs hmin
    have hmin2 : ∀ a2 b2, a ++ ((p :: ps) ++ b) = a2 ++ ((p :: ps) ++ b2) →
        a.length ≤ a2.length := fun a2 b2 h => hmin a2 b2 (hs.trans h)
    rw [pySubLiteral_toList hpat, hs,
      replaceAllAux_leftmost p ps new.toList a b hmin2]

/-- Witness for the amended C7: the bracketed span wins although the
bare url also occurs (its backslash-free replacement parses to
itself), and the no-occurrence conjunct at a concrete pattern. -/
theorem rewriter_precedence_and_replacement_witness :
    editOne "x [[http://g/y|L]] and http://g/y z" ⟨"http://g/y", "A"⟩ =
      pySubLiteral "[[http://g/y|L]]" ("[[http://g/y|L]]" ++ archiveInsertion "A")
        "x [[http://g/y|L]] and http://g/y z" ∧
    pySubLiteral "http://q/" "Q" "tiny" = "tiny" :=
  ⟨(rewriter_precedence_and_replacement "x [[http://g/y|L]] and http://g/y z"
      ⟨"http://g/y", "A"⟩).1 "[[http://g/y|L]]" (by decide) (by decide),
    (rewriter_precedence_and_replacement "" ⟨"", ""⟩).2.2.2.1 "http://q/" "Q"
      "tiny" 'h' "ttp://q/".toList (by decide) (by decide)
      (fun hocc => by
        obtain ⟨a, b, hab⟩ := hocc
        have hlen := congrArg List.length hab
        simp [List.length_append] at hlen
        omega)⟩


/-- C9: `edit_text` interpolates the original url into its patterns
without escaping (line 188), so a url containing an open parenthesis
makes the bare-link pattern unbalanced and `re.compile` raises
(first conjunct); for urls with no regex special character the pattern
always compiles (second conjunct) and matching is exactly the literal
whitespace-or-boundary-bounded occurrence of the url (third conjunct). -/
theorem edit_regex_interpolation_unescaped :
    reCompileBalanced (normalLinkPatternString "http://x.com/a(b") = false ∧
    (∀ u : String, noRegexSpecial u = true →
      reCompileBalanced (normalLinkPatternString u) = true) ∧
    (∀ u t : String, noRegexSpecial u = true → u.toList ≠ [] →
      (normalSearch u t = true ↔
        ∃ a b, t.toList = a ++ (u.toList ++ b) ∧
          (a = [] ∨ ∃ a2 c, a = a2 ++ [c] ∧ isWS c = true) ∧ wsOrEnd b = true)) := by
  refine ⟨rfl, ?_, ?_⟩
  · intro u hu
    show parenScan (normalLinkPatternString u).toList 0 false false = true
    have hlist : (normalLinkPatternString u).toList =
        "(?:(?<=\\s)|(?<=^))".toList ++ (u.toList ++ "(?=\\s|$)".toList) := by
      show (("(?:(?<=\\s)|(?<=^))" ++ u) ++ "(?=\\s|$)").data =
        "(?:(?<=\\s)|(?<=^))".toList ++ (u.toList ++ "(?=\\s|$)".toList)
      rw [String.data_append, String.data_append, List.append_assoc]
      rfl
    rw [hlist]
    rw [show ∀ X, parenScan ("(?:(?<=\\s)|(?<=^))".toList ++ X) 0 false false =
      parenScan X 0 false false from fun X => rfl]
    rw [parenScan_skip u.toList
      (fun c hc => by simpa using List.all_eq_true.mp hu c hc) "(?=\\s|$)".toList 0]
    rfl
  · intro u t hu hne
    have hdot : '.' ∉ u.toList := fun hmem => by
      have := List.all_eq_true.mp hu '.' hmem
      simp [pyRegexSpecial] at this
    constructor
    · intro h
      obtain ⟨a, b, heq, hbound, hws⟩ := nsAux_complete u.toList hdot t.toList none h
      refine ⟨a, b, heq, ?_, hws⟩
      rcases hbound with ⟨rfl, -⟩ | hb
      · exact Or.inl rfl
      · exact Or.inr hb
    · rintro ⟨a, b, heq, hbound, hws⟩
      unfold normalSearch
      rw [heq]
      refine nsAux_sound u.toList b hne hws a none (fun _ => rfl) ?_
      intro a2 c hdec
      rcases hbound with rfl | ⟨a3, c3, rfl, hc3⟩
      · exact absurd hdec.symm (by simp)
      · have e1 : (a2 ++ [c]).getLast? = some c := List.getLast?_concat a2
        have e2 : (a3 ++ [c3]).getLast? = some c3 := List.getLast?_concat a3
        rw [hdec, e1] at e2
        rw [Option.some.inj e2]
        exact hc3

/-- Witness for C9 at a special-character-free url. -/
theorem edit_regex_interpolation_unescaped_witness :
    reCompileBalanced (normalLinkPatternString "http://foo/bar") = true ∧
    (normalSearch "http://foo/bar" "see http://foo/bar now" = true ↔
      ∃ a b, ("see http://foo/bar now").toList = a ++ ("http://foo/bar".toList ++ b) ∧
        (a = [] ∨ ∃ a2 c, a = a2 ++ [c] ∧ isWS c = true) ∧ wsOrEnd b = true) :=
  ⟨edit_regex_interpolation_unescaped.2.1 "http://foo/bar" (by decide),
    edit_regex_interpolation_unescaped.2.2 "http://foo/bar" "see http://foo/bar now"
      (by decide) (by decide)⟩

/-- C10: every url the Extractor returns has a parseable non-empty
hostname; a scheme-less token such as `google.com` parses to no
hostname, so it is silently dropped whatever the tokeniser found, even
though the Archive Client itself would prefix `http://` to it. -/
theorem extractor_hostname_invariant :
    (∀ (findUrls : String → List String) (T u : String),
      u ∈ get_urls_to_archive_from_text findUrls T →
        ∃ hh, urlparseHostname u = some hh ∧ hh ≠ "") ∧
    urlparseHostname "google.com" = none ∧
    (∀ (findUrls : String → List String) (T : String),
      "google.com" ∉ get_urls_to_archive_from_text findUrls T) ∧
    normalizeUrl "google.com" = "http://google.com" := by
  have hmain : ∀ (findUrls : String → List String) (T u : String),
      u ∈ get_urls_to_archive_from_text findUrls T →
        ∃ hh, urlparseHostname u = some hh ∧ hh ≠ "" := by
    intro f T u hmem
    obtain ⟨tok, -, htok⟩ := mem_get_urls.mp hmem
    obtain ⟨-, ⟨hh, hsome, -⟩, -⟩ := tokenResult_eq_some htok
    exact ⟨hh, hsome, urlparseHostname_ne_empty hsome⟩
  refine ⟨hmain, rfl, ?_, rfl⟩
  intro f T hmem
  obtain ⟨hh, hsome, -⟩ := hmain f T _ hmem
  rw [show urlparseHostname "google.com" = none from rfl] at hsome
  exact Option.noConfusion hsome

/-- Witness for C10 at a concrete extractor run. -/
theorem extractor_hostname_invariant_witness :
    ∃ hh, urlparseHostname "http://e.org/" = some hh ∧ hh ≠ "" :=
  extractor_hostname_invariant.1 (fun _ => ["http://e.org/"]) "see http://e.org/ ok"
    "http://e.org/" (by decide)


theorem save_link_eq (svc : WaybackService) (now : Int) (url0 : String) :
    save_link_in_wayback_machine svc now url0 =
      match svc.availability (normalizeUrl url0) with
      | .error e => ⟨.error e, false⟩
      | .ok avail =>
        match (match avail.closest with
          | some cs =>
            if (now - cs.timestamp).fdiv 86400 < 14 then some cs.url else none
          | none => none) with
        | some au =>
          if au = "" then doSave svc (normalizeUrl url0) else ⟨.ok au, false⟩
        | none => doSave svc (normalizeUrl url0) := rfl

theorem doSave_runtime {svc : WaybackService} {url : String} {r : SaveResult}
    {msg : String} (hs : svc.save url = .ok r) (hr : r.runtimeError = some msg) :
    doSave svc url = ⟨.error (.saveLinkException msg), true⟩ := by
  unfold doSave
  simp only [hs, hr]

theorem doSave_liveweb {svc : WaybackService} {url : String} {r : SaveResult}
    {msg : String} (hs : svc.save url = .ok r) (hr : r.runtimeError = none)
    (hl : r.livewebError = some msg) :
    doSave svc url = ⟨.error (.saveLinkException msg), true⟩ := by
  unfold doSave
  simp only [hs, hr, hl]

theorem doSave_saveCalled (svc : WaybackService) (url : String) :
    (doSave svc url).saveCalled = true := by
  unfold doSave
  cases hs : svc.save url with
  | error e => rfl
  | ok r =>
    obtain ⟨rt, lw, cl⟩ := r
    cases rt with
    | some m => rfl
    | none =>
      cases lw with
      | some m => rfl
      | none => rfl

/-- C1 is false as stated: the `try` in `archive_links` catches only
`requests.HTTPError` and `json.JSONDecodeError` (line 138), so the
typed `SaveLinkToWaybackMachineException` raised for an error-signal
header propagates: a batch with a failing url followed by a url the
service would archive returns the exception, not a partial result list
— the failure aborts the whole batch and good urls are lost too. -/
theorem batch_abort_on_save_error_cex :
    archive_links
        ⟨fun _ => .ok ⟨none⟩,
         fun url => if url = "http://bad.com" then .ok ⟨some "boom", none, none⟩
           else .ok ⟨none, none, some "/w/1"⟩⟩ 0
        ["http://bad.com", "http://good.com"] = .error (.saveLinkException "boom") ∧
    ∀ l, archive_links
        ⟨fun _ => .ok ⟨none⟩,
         fun url => if url = "http://bad.com" then .ok ⟨some "boom", none, none⟩
           else .ok ⟨none, none, some "/w/1"⟩⟩ 0
        ["http://bad.com", "http://good.com"] ≠ .ok l := by
  refine ⟨rfl, fun l h => ?_⟩
  rw [show archive_links
      ⟨fun _ => .ok ⟨none⟩,
       fun url => if url = "http://bad.com" then .ok ⟨some "boom", none, none⟩
         else .ok ⟨none, none, some "/w/1"⟩⟩ 0
      ["http://bad.com", "http://good.com"] =
    .error (.saveLinkException "boom") from rfl] at h
  exact Except.noConfusion h

/-- C1 (amended): the Archive Client does raise the typed failure with
the message of either error header (first two conjuncts), but the Batch
Archiver catches only HTTP and JSON-decode errors: the typed save
failure propagates and aborts the batch (third conjunct), while for the
caught kinds the failing url is skipped and the other urls' results are
returned (fourth conjunct). -/
theorem save_error_raises_and_batch_policy :
    (∀ (svc : WaybackService) (now : Int) (url : String) (r : SaveResult) (msg : String),
      svc.availability (normalizeUrl url) = .ok ⟨none⟩ →
      svc.save (normalizeUrl url) = .ok r → r.runtimeError = some msg →
      (save_link_in_wayback_machine svc now url).result =
        .error (.saveLinkException msg)) ∧
    (∀ (svc : WaybackService) (now : Int) (url : String) (r : SaveResult) (msg : String),
      svc.availability (normalizeUrl url) = .ok ⟨none⟩ →
      svc.save (normalizeUrl url) = .ok r → r.runtimeError = none →
      r.livewebError = some msg →
      (save_link_in_wayback_machine svc now url).result =
        .error (.saveLinkException msg)) ∧
    (∀ (svc : WaybackService) (now : Int) (u1 u2 msg : String),
      ¬ (urlparseHostname u1).any (fun hh => hh ∈ IGNORED_HOSTS) = true →
      (save_link_in_wayback_machine svc now u1).result =
        .error (.saveLinkException msg) →
      archive_links svc now [u1, u2] = .error (.saveLinkException msg)) ∧
    (∀ (svc : WaybackService) (now : Int) (u1 u2 a2 : String),
      ¬ (urlparseHostname u1).any (fun hh => hh ∈ IGNORED_HOSTS) = true →
      ¬ (urlparseHostname u2).any (fun hh => hh ∈ IGNORED_HOSTS) = true →
      (save_link_in_wayback_machine svc now u1).result = .error .httpError →
      (save_link_in_wayback_machine svc now u2).result = .ok a2 →
      archive_links svc now [u1, u2] = .ok [⟨u2, a2⟩]) := by
  refine ⟨?_, ?_, ?_, ?_⟩
  · intro svc now url r msg hav hsave hrt
    rw [save_link_eq, hav]
    show (doSave svc (normalizeUrl url)).result = .error (.saveLinkException msg)
    rw [doSave_runtime hsave hrt]
  · intro svc now url r msg hav hsave hrt hlw
    rw [save_link_eq, hav]
    show (doSave svc (normalizeUrl url)).result = .error (.saveLinkException msg)
    rw [doSave_liveweb hsave hrt hlw]
  · intro svc now u1 u2 msg hig hsl
    show (if (urlparseHostname u1).any (fun hh => hh ∈ IGNORED_HOSTS) = true then
        archive_links svc now [u2]
      else
        match (save_link_in_wayback_machine svc now u1).result with
        | .ok a => (archive_links svc now [u2]).map (fun l => ⟨u1, a⟩ :: l)
        | .error .httpError => archive_links svc now [u2]
        | .error .jsonDecodeError => archive_links svc now [u2]
        | .error (.saveLinkException m) => .error (.saveLinkException m)) =
      .error (.saveLinkException msg)
    rw [if_neg hig, hsl]
  · intro svc now u1 u2 a2 hig1 hig2 h1 h2
    show (if (urlparseHostname u1).any (fun hh => hh ∈ IGNORED_HOSTS) = true then
        archive_links svc now [u2]
      else
        match (save_link_in_wayback_machine svc now u1).result with
        | .ok a => (archive_links svc now [u2]).map (fun l => ⟨u1, a⟩ :: l)
        | .error .httpError => archive_links svc now [u2]
        | .error .jsonDecodeError => archive_links svc now [u2]
        | .error (.saveLinkException m) => .error (.saveLinkException m)) =
      .ok [⟨u2, a2⟩]
    rw [if_neg hig1, h1]
    show (if (urlparseHostname u2).any (fun hh => hh ∈ IGNORED_HOSTS) = true then
        archive_links svc now []
      else
        match (save_link_in_wayback_machine svc now u2).result with
        | .ok a => (archive_links svc now []).map (fun l => ⟨u2, a⟩ :: l)
        | .error .httpError => archive_links svc now []
        | .error .jsonDecodeError => archive_links svc now []
        | .error (.saveLinkException m) => .error (.saveLinkException m)) =
      .ok [⟨u2, a2⟩]
    rw [if_neg hig2, h2]
    rfl

/-- Witness for the amended C1 at concrete services and urls. -/
theorem save_error_raises_and_batch_policy_witness :
    (save_link_in_wayback_machine
        ⟨fun _ => .ok ⟨none⟩, fun _ => .ok ⟨some "boom", none, none⟩⟩ 0
        "http://a.com").result = .error (.saveLinkException "boom") ∧
    archive_links
        ⟨fun _ => .ok ⟨none⟩, fun _ => .ok ⟨some "boom", none, none⟩⟩ 0
        ["http://a.com", "http://b.com"] = .error (.saveLinkException "boom") ∧
    archive_links
        ⟨fun url => if url = "http://a.com" then .error .httpError else .ok ⟨none⟩,
         fun _ => .ok ⟨none, none, some "/w/1"⟩⟩ 0
        ["http://a.com", "http://b.com"] =
      .ok [⟨"http://b.com", "https://web.archive.org/w/1"⟩] := by
  refine ⟨?_, ?_, ?_⟩
  · exact save_error_raises_and_batch_policy.1
      ⟨fun _ => .ok ⟨none⟩, fun _ => .ok ⟨some "boom", none, none⟩⟩ 0 "http://a.com"
      ⟨some "boom", none, none⟩ "boom" rfl rfl rfl
  · exact save_error_raises_and_batch_policy.2.2.1
      ⟨fun _ => .ok ⟨none⟩, fun _ => .ok ⟨some "boom", none, none⟩⟩ 0
      "http://a.com" "http://b.com" "boom" (by decide)
      (save_error_raises_and_batch_policy.1
        ⟨fun _ => .ok ⟨none⟩, fun _ => .ok ⟨some "boom", none, none⟩⟩ 0 "http://a.com"
        ⟨some "boom", none, none⟩ "boom" rfl rfl rfl)
  · exact save_error_raises_and_batch_policy.2.2.2
      ⟨fun url => if url = "http://a.com" then .error .httpError else .ok ⟨none⟩,
       fun _ => .ok ⟨none, none, some "/w/1"⟩⟩ 0
      "http://a.com" "http://b.com" "https://web.archive.org/w/1"
      (by decide) (by decide) rfl rfl


/-- C3 is false as stated: when the availability query returns a fresh
closest snapshot (3 days old) whose `url` field is the empty string,
the kept value is falsy in Python (`if not archived_url`, line 96), so
the client still issues a save request even though a closest-snapshot
record under 14 days old exists. -/
theorem save_fresh_empty_url_cex :
    (save_link_in_wayback_machine
        (mkService ⟨some ⟨0, ""⟩⟩ ⟨none, none, some "/w/1"⟩) 259200
        "http://a.com").saveCalled = true ∧
    (mkService ⟨some ⟨0, ""⟩⟩ ⟨none, none, some "/w/1"⟩).availability "http://a.com" =
      .ok ⟨some ⟨0, ""⟩⟩ ∧
    ((259200 : Int) - 0).fdiv 86400 < 14 := ⟨rfl, rfl, by decide⟩

theorem save_link_char_none (svc : WaybackService) (now : Int) (url : String)
    (hav : svc.availability (normalizeUrl url) = .ok ⟨none⟩) :
    save_link_in_wayback_machine svc now url = doSave svc (normalizeUrl url) := by
  rw [save_link_eq, hav]

theorem save_link_char_some (svc : WaybackService) (now : Int) (url : String)
    (cs : ClosestSnapshot)
    (hav : svc.availability (normalizeUrl url) = .ok ⟨some cs⟩) :
    save_link_in_wayback_machine svc now url =
      if (now - cs.timestamp).fdiv 86400 < 14 then
        if cs.url = "" then doSave svc (normalizeUrl url)
        else ⟨.ok cs.url, false⟩
      else doSave svc (normalizeUrl url) := by
  rw [save_link_eq, hav]
  show (match (if (now - cs.timestamp).fdiv 86400 < 14 then some cs.url else none) with
    | some au => if au = "" then doSave svc (normalizeUrl url)
        else ⟨.ok au, false⟩
    | none => doSave svc (normalizeUrl url)) = _
  by_cases hfresh : (now - cs.timestamp).fdiv 86400 < 14
  · rw [if_pos hfresh, if_pos hfresh]
  · rw [if_neg hfresh, if_neg hfresh]

/-- C3 (amended): the save endpoint is hit exactly when the
availability response has no closest record, or the record is 14 or
more days old, or the fresh record url is the empty string; a fresh
record with a non-empty url is returned as the result with no save
request issued (the 3-day and 30-day scenarios are the witness). -/
theorem save_request_iff (svc : WaybackService) (now : Int) (url : String)
    (cl : Option ClosestSnapshot)
    (hav : svc.availability (normalizeUrl url) = .ok ⟨cl⟩) :
    ((save_link_in_wayback_machine svc now url).saveCalled = true ↔
      (cl = none ∨
        ∃ cs, cl = some cs ∧
          (14 ≤ (now - cs.timestamp).fdiv 86400 ∨ cs.url = ""))) ∧
    (∀ cs, cl = some cs → (now - cs.timestamp).fdiv 86400 < 14 →
      cs.url ≠ "" →
      (save_link_in_wayback_machine svc now url).result = .ok cs.url ∧
        (save_link_in_wayback_machine svc now url).saveCalled = false) := by
  cases cl with
  | none =>
    rw [save_link_char_none svc now url hav]
    exact ⟨⟨fun _ => Or.inl rfl, fun _ => doSave_saveCalled svc (normalizeUrl url)⟩,
      fun cs hcs => absurd hcs (by simp)⟩
  | some cs =>
    rw [save_link_char_some svc now url cs hav]
    by_cases hfresh : (now - cs.timestamp).fdiv 86400 < 14
    · rw [if_pos hfresh]
      by_cases hurl : cs.url = ""
      · rw [if_pos hurl]
        refine ⟨⟨fun _ => Or.inr ⟨cs, rfl, Or.inr hurl⟩,
          fun _ => doSave_saveCalled svc (normalizeUrl url)⟩, ?_⟩
        intro cs2 hcs2 _ hne2
        rw [← Option.some.inj hcs2] at hne2
        exact absurd hurl hne2
      · rw [if_neg hurl]
        refine ⟨⟨fun hcon => absurd hcon (by simp), ?_⟩, ?_⟩
        · intro hor
          exfalso
          rcases hor with hnone | ⟨cs2, hcs2, hrest⟩
          · exact Option.noConfusion hnone
          · rw [← Option.some.inj hcs2] at hrest
            rcases hrest with hstale | hempty
            · omega
            · exact hurl hempty
        · intro cs2 hcs2 _ _
          rw [← Option.some.inj hcs2]
          exact ⟨rfl, rfl⟩
    · rw [if_neg hfresh]
      refine ⟨⟨fun _ => Or.inr ⟨cs, rfl, Or.inl (by omega)⟩,
        fun _ => doSave_saveCalled svc (normalizeUrl url)⟩, ?_⟩
      intro cs2 hcs2 hf2 _
      rw [← Option.some.inj hcs2] at hf2
      exact absurd hf2 hfresh

/-- Witness for the amended C3: a 3-day-old snapshot is reused without
a save request, a 30-day-old one triggers a save request. -/
theorem save_request_iff_witness :
    (save_link_in_wayback_machine
        (mkService ⟨some ⟨0, "http://snap"⟩⟩ ⟨none, none, some "/w/1"⟩) 259200
        "http://a.com").result = .ok "http://snap" ∧
    (save_link_in_wayback_machine
        (mkService ⟨some ⟨0, "http://snap"⟩⟩ ⟨none, none, some "/w/1"⟩) 259200
        "http://a.com").saveCalled = false ∧
    (save_link_in_wayback_machine
        (mkService ⟨some ⟨0, "http://snap"⟩⟩ ⟨none, none, some "/w/1"⟩) 2592000
        "http://a.com").saveCalled = true := by
  have hfresh := (save_request_iff
      (mkService ⟨some ⟨0, "http://snap"⟩⟩ ⟨none, none, some "/w/1"⟩) 259200
      "http://a.com" (some ⟨0, "http://snap"⟩) rfl).2
    ⟨0, "http://snap"⟩ rfl (by decide) (by decide)
  have hstale := (save_request_iff
      (mkService ⟨some ⟨0, "http://snap"⟩⟩ ⟨none, none, some "/w/1"⟩) 2592000
      "http://a.com" (some ⟨0, "http://snap"⟩) rfl).1.mpr
    (Or.inr ⟨⟨0, "http://snap"⟩, rfl, Or.inl (by decide)⟩)
  exact ⟨hfresh.1, hfresh.2, hstale⟩

end Zl2wbm
